import Mathlib

/-!
# RoFST: a shallow embedding of the Romanian morpheme FST and syllabifier

This file embeds the two source modules of the RoFST repository —
`FST.py` (the morphological decomposition engine) and `syllabifier.py`
(the syllable segmenter) — as executable Lean definitions, and proves
properties about them.

Python strings are modelled as `List Char`; Python dicts (used only for
insertion-ordered iteration) as association lists; Python sets of
allomorphs as lists in their written order; raising an exception as
returning `Except.error`.
-/

namespace RoFST

/-- Python strings are modelled as lists of characters. -/
abbrev Str := List Char

/-- Convert a Lean string literal into the `List Char` model. -/
def str (s : String) : Str := s.data

/-- Embedding of Python `str.lower`, applied per character.  It covers ASCII
letters and the upper-case Romanian letters that can occur in inputs. -/
def lowerChar (c : Char) : Char :=
  if c = 'Ă' then 'ă' else if c = 'Â' then 'â' else if c = 'Î' then 'î'
  else if c = 'Ș' then 'ș' else if c = 'Ț' then 'ț' else c.toLower

/-- Embedding of Python `word.lower()`. -/
def lower (w : Str) : Str := w.map lowerChar

/-- `FST.py` line 4: `MorphemeRule` — a morphological rule with its category,
meaning and set of allomorphs (the Python `Set[str]` is modelled as a list in
written order; nothing below depends on that order beyond list ordering). -/
structure MorphemeRule where
  category : Str
  meaning : Str
  allomorphs : List Str
deriving DecidableEq, Repr

/-- A morpheme instance: a matched surface form together with its rule. -/
abbrev Morph := Str × MorphemeRule

/-- One matcher hypothesis: the list of matched morphemes plus the remaining
(unconsumed) part of the word. -/
abbrev MatchRes := List Morph × Str

/-- A decomposition: an ordered list of morpheme instances. -/
abbrev Decomp := List Morph

/-- A rule sub-table: Python `Dict[str, MorphemeRule]`, modelled as an
insertion-ordered association list. -/
abbrev RuleTable := List (Str × MorphemeRule)

/-- `FST.py` lines 14-26: `self.prefixes`. -/
def prefixes : RuleTable := [
  (str "răs", ⟨str "prefix", str "again/against", [str "răs", str "răz"]⟩),
  (str "în", ⟨str "prefix", str "in/into", [str "în", str "îm"]⟩),
  (str "des", ⟨str "prefix", str "un/reverse", [str "des", str "dez"]⟩),
  (str "pre", ⟨str "prefix", str "pre/before", [str "pre"]⟩),
  (str "ne", ⟨str "prefix", str "negation", [str "ne"]⟩),
  (str "sub", ⟨str "prefix", str "under", [str "sub", str "sup"]⟩),
  (str "supra", ⟨str "prefix", str "above", [str "supra"]⟩),
  (str "ante", ⟨str "prefix", str "before", [str "ante"]⟩),
  (str "post", ⟨str "prefix", str "after", [str "post"]⟩),
  (str "pseudo", ⟨str "prefix", str "fake", [str "pseudo"]⟩),
  (str "sin", ⟨str "prefix", str "together", [str "sin", str "sim"]⟩)]

/-- `FST.py` lines 28-37: `self.noun_suffixes`.  Note that in the source the
entries for `ie` and `ar` each contain a single allomorph string with an
embedded comma (`{'ie, iune'}`, `{'ar, ară'}`); this is reproduced as is. -/
def noun_suffixes : RuleTable := [
  (str "tor", ⟨str "suffix", str "agent", [str "tor", str "toare"]⟩),
  (str "ție", ⟨str "suffix", str "action/result", [str "ție", str "ții"]⟩),
  (str "ime", ⟨str "suffix", str "collective", [str "ime"]⟩),
  (str "iță", ⟨str "suffix", str "diminutive", [str "iță"]⟩),
  (str "tură", ⟨str "suffix", str "action result", [str "tură"]⟩),
  (str "re", ⟨str "suffix", str "action result, long infinitive", [str "re"]⟩),
  (str "ie", ⟨str "suffix", str "action result", [str "ie, iune"]⟩),
  (str "ar", ⟨str "suffix", str "action taker/object of action", [str "ar, ară"]⟩)]

/-- `FST.py` lines 39-44: `self.verb_suffixes`. -/
def verb_suffixes : RuleTable := [
  (str "esc", ⟨str "suffix", str "present.1sg", [str "esc"]⟩),
  (str "ează", ⟨str "suffix", str "present.3sg", [str "ează"]⟩),
  (str "at", ⟨str "suffix", str "participle", [str "at", str "t"]⟩),
  (str "ând", ⟨str "suffix", str "gerund", [str "ând", str "ind"]⟩)]

/-- `FST.py` lines 46-50: `self.plural_suffixes`. -/
def plural_suffixes : RuleTable := [
  (str "i", ⟨str "suffix", str "plural", [str "i"]⟩),
  (str "uri", ⟨str "suffix", str "plural", [str "uri"]⟩),
  (str "e", ⟨str "suffix", str "plural", [str "e"]⟩)]

/-- `FST.py` lines 53-59: `self.noun_endings`. -/
def noun_endings : RuleTable := [
  (str "ul", ⟨str "ending", str "def.masc.sg", [str "ul", str "l", str "u"]⟩),
  (str "a", ⟨str "ending", str "def.fem.sg", [str "a"]⟩),
  (str "lui", ⟨str "ending", str "gen/dat.masc.sg", [str "lui"]⟩),
  (str "ei", ⟨str "ending", str "gen/dat.fem.sg", [str "ei"]⟩),
  (str "lor", ⟨str "ending", str "gen/dat.pl", [str "lor"]⟩)]

/-- Python `word[:-len(allomorph)]` as used in `_find_suffix_matches`
(`FST.py` line 126).  Note the Python quirk: when `len(allomorph) = 0` the
slice is `word[:-0] = word[:0] = ""`, not the whole word. -/
def cutSuffix (w a : Str) : Str :=
  if a = [] then [] else w.take (w.length - a.length)

/-- The match-collection loop of `_find_suffix_matches` (`FST.py` lines
121-136), with the recursive call abstracted as `rec`: for every rule and
every one of its allomorphs ending the word, add the combinations with each
recursive continuation and then the single-step match alone. -/
def suffixCollect (rec : Str → List MatchRes) (d : RuleTable) (w : Str) :
    List MatchRes :=
  d.flatMap (fun nr =>
    nr.2.allomorphs.flatMap (fun a =>
      if a.isSuffixOf w then
        let remaining := cutSuffix w a
        let next := rec remaining
        (if next = [] then [] else next.map (fun m => ((a, nr.2) :: m.1, m.2)))
          ++ [([(a, nr.2)], remaining)]
      else []))

/-- `FST.py` lines 114-138: `_find_suffix_matches`, with an explicit fuel
parameter bounding the recursion depth (the source recursion is justified by
strict shortening of the remainder; see the termination theorem below).
Line 138: if no match was found, return the single empty hypothesis. -/
def find_suffix_matches_fuel : Nat → RuleTable → Str → List MatchRes
  | 0, _, w => [([], w)]
  | f + 1, d, w =>
    let ms := suffixCollect (find_suffix_matches_fuel f d) d w
    if ms = [] then [([], w)] else ms

/-- `_find_suffix_matches` with enough fuel for its argument (depth is
bounded by the word length when all allomorphs are non-empty). -/
def find_suffix_matches (w : Str) (d : RuleTable) : List MatchRes :=
  find_suffix_matches_fuel (w.length + 1) d w

/-- The match-collection loop of `_find_prefix_matches` (`FST.py` lines
95-111), with the recursive call abstracted as `rec`. -/
def prefixCollect (rec : Str → List MatchRes) (w : Str) : List MatchRes :=
  prefixes.flatMap (fun nr =>
    nr.2.allomorphs.flatMap (fun a =>
      if a.isPrefixOf w then
        let remaining := w.drop a.length
        let next := rec remaining
        (if next = [] then [] else next.map (fun m => ((a, nr.2) :: m.1, m.2)))
          ++ [([(a, nr.2)], remaining)]
      else []))

/-- Modelled from the spec: `_find_prefix_matches_from_start`, invoked at the
recursive position of `_find_prefix_matches` (`FST.py` line 102), is defined
nowhere in the source.  Spec §4.2 describes the intended behaviour: on a
match, "recursively re-invoke on the shortened remainder to find further
prefixes", with the no-match case degenerating to the single empty
hypothesis — i.e. the same algorithm as `_find_prefix_matches` itself.  It is
modelled accordingly, with a fuel parameter as for the suffix matcher. -/
def find_prefix_matches_fuel : Nat → Str → List MatchRes
  | 0, w => [([], w)]
  | f + 1, w =>
    let ms := prefixCollect (find_prefix_matches_fuel f) w
    if ms = [] then [([], w)] else ms

/-- `FST.py` lines 88-112: `_find_prefix_matches`, with enough fuel. -/
def find_prefix_matches (w : Str) : List MatchRes :=
  find_prefix_matches_fuel (w.length + 1) w

/-- The root rule `MorphemeRule('root', 'root', {remaining})`
(`FST.py` lines 175, 196, 211). -/
def rootRule (w : Str) : MorphemeRule := ⟨str "root", str "root", [w]⟩

/-- `FST.py` lines 158-185: the noun branch of `decompose` for one prefix
hypothesis — endings, then plural suffixes, then noun suffixes, keeping only
combinations with a non-empty residual root, assembled in the order
prefixes, root, noun suffixes, plural suffixes, endings. -/
def nounBranch (pr : MatchRes) : List Decomp :=
  (find_suffix_matches pr.2 noun_endings).flatMap (fun er =>
    (find_suffix_matches er.2 plural_suffixes).flatMap (fun plr =>
      (find_suffix_matches plr.2 noun_suffixes).flatMap (fun nsr =>
        if nsr.2 ≠ [] then
          [pr.1 ++ [(nsr.2, rootRule nsr.2)] ++ nsr.1 ++ plr.1 ++ er.1]
        else [])))

/-- `FST.py` lines 187-204: the verb branch of `decompose` for one prefix
hypothesis — verb suffixes only, assembled as prefixes, root, verb
suffixes. -/
def verbBranch (pr : MatchRes) : List Decomp :=
  (find_suffix_matches pr.2 verb_suffixes).flatMap (fun vr =>
    if vr.2 ≠ [] then [pr.1 ++ [(vr.2, rootRule vr.2)] ++ vr.1] else [])

/-- The canonical key used by `_remove_duplicates` (`FST.py` lines 79-80):
the ordered sequence of (surface form, category, meaning, allomorphs) over
the morphemes of a decomposition. -/
def decompKey (d : Decomp) : List (Str × Str × Str × List Str) :=
  d.map (fun m => (m.1, m.2.category, m.2.meaning, m.2.allomorphs))

/-- The loop of `_remove_duplicates` (`FST.py` lines 74-86): the `seen` set
of canonical keys is modelled as a list with membership testing. -/
def removeDupsAux (seen : List (List (Str × Str × Str × List Str))) :
    List Decomp → List Decomp
  | [] => []
  | d :: ds =>
    if decompKey d ∈ seen then removeDupsAux seen ds
    else d :: removeDupsAux (decompKey d :: seen) ds

/-- `FST.py` lines 73-86: `_remove_duplicates`. -/
def remove_duplicates (ds : List Decomp) : List Decomp := removeDupsAux [] ds

/-- The POS tag `'n'`. -/
def strN : Str := str "n"

/-- The POS tag `'v'`. -/
def strV : Str := str "v"

/-- The message of the `ValueError` raised at `FST.py` line 207. -/
def errUnsupported (pos : Str) : Str :=
  str "Unsupported part of speech: " ++ pos ++
    str ". Use 'n' for nouns or 'v' for verbs."

/-- The body of the `for prefix_morphemes, after_prefixes in prefix_results`
loop of `decompose` (`FST.py` lines 156-207) for a single prefix hypothesis:
dispatch on the part of speech, raising `ValueError` on an unsupported one. -/
def decompStep (pos : Str) (pr : MatchRes) : Except Str (List Decomp) :=
  if pos = strN then .ok (nounBranch pr)
  else if pos = strV then .ok (verbBranch pr)
  else .error (errUnsupported pos)

/-- The loop of `decompose` over all prefix hypotheses, accumulating
`all_decompositions`; a raised `ValueError` aborts the whole call. -/
def collectDecomps (pos : Str) : List MatchRes → Except Str (List Decomp)
  | [] => .ok []
  | pr :: rest =>
    match decompStep pos pr with
    | .error e => .error e
    | .ok ds =>
      match collectDecomps pos rest with
      | .error e => .error e
      | .ok rest2 => .ok (ds ++ rest2)

/-- `FST.py` lines 140-215: `decompose`.  Lower-case the word, enumerate
prefix hypotheses, run the POS-specific pipeline on each, fall back to the
whole-word root decomposition if nothing was produced (lines 209-212), and
deduplicate (line 214). -/
def decompose (word pos : Str) : Except Str (List Decomp) :=
  let w := lower word
  match collectDecomps pos (find_prefix_matches w) with
  | .error e => .error e
  | .ok all =>
    let all2 := if all = [] then [[(w, rootRule w)]] else all
    .ok (remove_duplicates all2)

/-- The decomposition list of a successful `decompose` call (empty on
error); convenient for stating concrete counterexamples. -/
def decomps (word pos : Str) : List Decomp :=
  match decompose word pos with
  | .ok ds => ds
  | .error _ => []

/-- Concatenation of the surface forms of a morpheme list, in listed
order. -/
def joinSurf (ms : List Morph) : Str := (ms.map Prod.fst).flatten

/-- The rule of the `ul` noun ending (`FST.py` line 54), named for use in
concrete statements. -/
def ulRule : MorphemeRule := ⟨str "ending", str "def.masc.sg", [str "ul", str "l", str "u"]⟩

/-- The rule of the `a` noun ending (`FST.py` line 55). -/
def aRule : MorphemeRule := ⟨str "ending", str "def.fem.sg", [str "a"]⟩

/-- The rule of the `ne` prefix (`FST.py` line 19). -/
def neRule : MorphemeRule := ⟨str "prefix", str "negation", [str "ne"]⟩

/-- The rule of the `ând` verb suffix (`FST.py` line 43). -/
def gerundRule : MorphemeRule := ⟨str "suffix", str "gerund", [str "ând", str "ind"]⟩

/-! ## The syllabifier (`syllabifier.py`) -/

/-- `syllabifier.py` line 7: the Romanian vowels (including the stray `ү`
present in the source). -/
def vowels : Str := str "aăâeioîuү"

/-- `syllabifier.py` line 10: the Romanian consonants (defined in the source
but not consulted by the algorithm, which tests `not is_vowel`). -/
def consonants : Str := str "bcdfghjklmnpqrsștțvwxz"

/-- `syllabifier.py` lines 13-16: Romanian diphthongs. -/
def diphthongs : List Str :=
  [str "ea", str "eo", str "eu", str "ia", str "ie", str "ii", str "io",
   str "iu", str "îi", str "oa", str "ua", str "uă", str "ue", str "ui",
   str "uo"]

/-- `syllabifier.py` lines 19-21: Romanian triphthongs. -/
def triphthongs : List Str :=
  [str "eai", str "eau", str "iai", str "iau", str "iei", str "ioa",
   str "oai"]

/-- `syllabifier.py` lines 24-28: consonant clusters that are not split. -/
def consonant_clusters : List Str :=
  [str "bl", str "br", str "cl", str "cr", str "dr", str "fl", str "fr",
   str "gl", str "gr", str "pl", str "pr", str "sc", str "sk", str "sl",
   str "sm", str "sn", str "sp", str "st", str "șt", str "tr", str "vr",
   str "zl", str "zn", str "zv"]

/-- `syllabifier.py` lines 30-32: `is_vowel` (lower-cases its argument). -/
def is_vowel (c : Char) : Bool := vowels.contains (lowerChar c)

/-- `syllabifier.py` lines 34-36: `is_diphthong` (not used by the scan). -/
def is_diphthong (s : Str) : Bool := diphthongs.contains (lower s)

/-- `syllabifier.py` lines 38-40: `is_triphthong` (not used by the scan). -/
def is_triphthong (s : Str) : Bool := triphthongs.contains (lower s)

/-- The `while i < len(word)` scan of `find_syllable_boundaries`
(`syllabifier.py` lines 49-103), recast as recursion on the unread part of
the (already lower-cased) word, carrying the current syllable.  The list
cases make the source's index guards structural: in the three-or-more arm
the guard `i + 2 < len(word)` of the triphthong test and of the VCV/VCCV
patterns holds by construction, in the two-element arm it fails, and in the
one-element arm `i + 1 < len(word)` fails, so only the character is
consumed and, the word being exhausted, the pending syllable is flushed
(lines 100-101). -/
def sylLoop : Str → Str → List Str
  | [], cur => if cur = [] then [] else [cur]
  | [c], cur => [cur ++ [c]]
  | [c, c1], cur =>
    if [c, c1] ∈ diphthongs then ((cur ++ [c]) ++ [c1]) :: sylLoop [] []
    else sylLoop [c1] (cur ++ [c])
  | c :: c1 :: c2 :: rest3, cur =>
    if [c, c1, c2] ∈ triphthongs then
      (cur ++ [c] ++ [c1, c2]) :: sylLoop rest3 []
    else if [c, c1] ∈ diphthongs then
      (cur ++ [c] ++ [c1]) :: sylLoop (c2 :: rest3) []
    else if is_vowel c = true ∧ is_vowel c1 = false ∧ is_vowel c2 = true then
      (cur ++ [c]) :: sylLoop (c1 :: c2 :: rest3) []
    else if is_vowel c = true ∧ is_vowel c1 = false ∧ is_vowel c2 = false then
      (if [c1, c2] ∈ consonant_clusters then
        (cur ++ [c]) :: sylLoop (c1 :: c2 :: rest3) []
      else
        (cur ++ [c] ++ [c1]) :: sylLoop (c2 :: rest3) [])
    else
      sylLoop (c1 :: c2 :: rest3) (cur ++ [c])
  termination_by rest _ => rest.length

/-- `syllabifier.py` lines 42-103: `find_syllable_boundaries` (lower-cases
the word, then scans). -/
def find_syllable_boundaries (w : Str) : List Str := sylLoop (lower w) []

/-- `syllabifier.py` lines 105-107: `syllabify` — hyphen-join the
syllables. -/
def syllabify (w : Str) : Str :=
  List.intercalate ['-'] (find_syllable_boundaries w)

/-! ## Basic lemmas -/

theorem joinSurf_nil : joinSurf [] = [] := rfl

theorem joinSurf_cons (m : Morph) (ms : List Morph) :
    joinSurf (m :: ms) = m.1 ++ joinSurf ms := by
  simp [joinSurf]

theorem joinSurf_append (l r : List Morph) :
    joinSurf (l ++ r) = joinSurf l ++ joinSurf r := by
  simp [joinSurf]

theorem cutSuffix_spec {p a w : Str} (hw : p ++ a = w) (ha : a ≠ []) :
    cutSuffix w a = p := by
  subst hw
  simp only [cutSuffix, if_neg ha, List.length_append]
  rw [Nat.add_sub_cancel]
  exact List.take_left p a

theorem lower_eq_nil_iff (w : Str) : lower w = [] ↔ w = [] := by
  simp [lower]

/-- Characterization of membership in the suffix-collection loop. -/
theorem suffixCollect_mem {rec : Str → List MatchRes} {d : RuleTable} {w : Str}
    {mr : MatchRes} (h : mr ∈ suffixCollect rec d w) :
    ∃ nr ∈ d, ∃ a ∈ nr.2.allomorphs, a.isSuffixOf w ∧
      (mr = ([(a, nr.2)], cutSuffix w a) ∨
        ∃ m ∈ rec (cutSuffix w a), mr = ((a, nr.2) :: m.1, m.2)) := by
  simp only [suffixCollect, List.mem_flatMap] at h
  obtain ⟨nr, hnr, a, ha, h⟩ := h
  by_cases hs : a.isSuffixOf w
  · rw [if_pos hs] at h
    rw [List.mem_append] at h
    refine ⟨nr, hnr, a, ha, hs, ?_⟩
    rcases h with h | h
    · by_cases hn : rec (cutSuffix w a) = []
      · rw [if_pos hn] at h
        cases h
      · rw [if_neg hn, List.mem_map] at h
        obtain ⟨m, hm, rfl⟩ := h
        exact Or.inr ⟨m, hm, rfl⟩
    · rw [List.mem_singleton] at h
      exact Or.inl h
  · rw [if_neg hs] at h
    cases h

/-- Characterization of membership in the prefix-collection loop. -/
theorem prefixCollect_mem {rec : Str → List MatchRes} {w : Str}
    {mr : MatchRes} (h : mr ∈ prefixCollect rec w) :
    ∃ nr ∈ prefixes, ∃ a ∈ nr.2.allomorphs, a.isPrefixOf w ∧
      (mr = ([(a, nr.2)], w.drop a.length) ∨
        ∃ m ∈ rec (w.drop a.length), mr = ((a, nr.2) :: m.1, m.2)) := by
  simp only [prefixCollect, List.mem_flatMap] at h
  obtain ⟨nr, hnr, a, ha, h⟩ := h
  by_cases hs : a.isPrefixOf w
  · rw [if_pos hs] at h
    rw [List.mem_append] at h
    refine ⟨nr, hnr, a, ha, hs, ?_⟩
    rcases h with h | h
    · by_cases hn : rec (w.drop a.length) = []
      · rw [if_pos hn] at h
        cases h
      · rw [if_neg hn, List.mem_map] at h
        obtain ⟨m, hm, rfl⟩ := h
        exact Or.inr ⟨m, hm, rfl⟩
    · rw [List.mem_singleton] at h
      exact Or.inl h
  · rw [if_neg hs] at h
    cases h

/-- Every hypothesis produced by the suffix-collection loop has consumed at
least one morpheme. -/
theorem suffixCollect_fst_ne_nil {rec : Str → List MatchRes} {d : RuleTable}
    {w : Str} {mr : MatchRes} (h : mr ∈ suffixCollect rec d w) : mr.1 ≠ [] := by
  obtain ⟨nr, _, a, _, _, h | ⟨m, _, h⟩⟩ := suffixCollect_mem h <;>
    subst h <;> simp

theorem find_suffix_matches_fuel_ne_nil (f : Nat) (d : RuleTable) (w : Str) :
    find_suffix_matches_fuel f d w ≠ [] := by
  cases f with
  | zero => simp [find_suffix_matches_fuel]
  | succ f =>
    simp only [find_suffix_matches_fuel]
    split
    · simp
    · assumption

theorem find_prefix_matches_fuel_ne_nil (f : Nat) (w : Str) :
    find_prefix_matches_fuel f w ≠ [] := by
  cases f with
  | zero => simp [find_prefix_matches_fuel]
  | succ f =>
    simp only [find_prefix_matches_fuel]
    split
    · simp
    · assumption

theorem find_prefix_matches_ne_nil (w : Str) : find_prefix_matches w ≠ [] :=
  find_prefix_matches_fuel_ne_nil _ w

/-- A table all of whose allomorphs are non-empty strings. -/
abbrev AllomorphsNonEmpty (d : RuleTable) : Prop :=
  ∀ nr ∈ d, ∀ a ∈ nr.2.allomorphs, a ≠ []

/-- For a table with non-empty allomorphs, each suffix-matcher hypothesis
reassembles the word as remainder followed by the consumed surface forms in
reverse listed order. -/
theorem find_suffix_matches_fuel_concat {d : RuleTable}
    (hd : AllomorphsNonEmpty d) :
    ∀ f w mr, mr ∈ find_suffix_matches_fuel f d w →
      mr.2 ++ joinSurf mr.1.reverse = w := by
  intro f
  induction f with
  | zero =>
    intro w mr h
    rw [find_suffix_matches_fuel, List.mem_singleton] at h
    subst h
    simp [joinSurf]
  | succ f ih =>
    intro w mr h
    simp only [find_suffix_matches_fuel] at h
    split at h
    · rw [List.mem_singleton] at h
      subst h
      simp [joinSurf]
    · obtain ⟨nr, hnr, a, ha, hs, hor⟩ := suffixCollect_mem h
      have hane : a ≠ [] := hd nr hnr a ha
      obtain ⟨p, hp⟩ : a <:+ w := by
        rw [← List.isSuffixOf_iff_suffix]
        exact hs
      have hcut : cutSuffix w a = p := cutSuffix_spec hp hane
      rcases hor with h | ⟨m, hm, h⟩
      · subst h
        simpa [joinSurf, hcut] using hp
      · subst h
        have := ih (cutSuffix w a) m hm
        simp only [List.reverse_cons, joinSurf_append, hcut] at *
        rw [← List.append_assoc, this]
        simpa [joinSurf] using hp

/-- Each prefix-matcher hypothesis reassembles the word as the consumed
surface forms in listed order followed by the remainder. -/
theorem find_prefix_matches_fuel_concat :
    ∀ f w mr, mr ∈ find_prefix_matches_fuel f w →
      joinSurf mr.1 ++ mr.2 = w := by
  intro f
  induction f with
  | zero =>
    intro w mr h
    rw [find_prefix_matches_fuel, List.mem_singleton] at h
    subst h
    simp [joinSurf]
  | succ f ih =>
    intro w mr h
    simp only [find_prefix_matches_fuel] at h
    split at h
    · rw [List.mem_singleton] at h
      subst h
      simp [joinSurf]
    · obtain ⟨nr, hnr, a, ha, hs, hor⟩ := prefixCollect_mem h
      obtain ⟨t, ht⟩ : a <+: w := by
        rw [← List.isPrefixOf_iff_prefix]
        exact hs
      have hdrop : w.drop a.length = t := by
        rw [← ht]
        exact List.drop_left a t
      rcases hor with h | ⟨m, hm, h⟩
      · subst h
        simp only [joinSurf_cons, joinSurf_nil, List.append_nil, hdrop]
        exact ht
      · subst h
        have hrec := ih (w.drop a.length) m hm
        simp only [joinSurf_cons, List.append_assoc, hrec, hdrop]
        exact ht

/-- Every morpheme produced by the suffix matcher carries a rule of the
sub-table it was called with, matched against one of its allomorphs. -/
theorem find_suffix_matches_fuel_rules :
    ∀ f (d : RuleTable) w mr, mr ∈ find_suffix_matches_fuel f d w →
      ∀ p ∈ mr.1, ∃ nr ∈ d, p.2 = nr.2 ∧ p.1 ∈ nr.2.allomorphs := by
  intro f
  induction f with
  | zero =>
    intro d w mr h
    rw [find_suffix_matches_fuel, List.mem_singleton] at h
    subst h
    intro p hp
    exact absurd hp (List.not_mem_nil p)
  | succ f ih =>
    intro d w mr h
    simp only [find_suffix_matches_fuel] at h
    split at h
    · rw [List.mem_singleton] at h
      subst h
      intro p hp
      exact absurd hp (List.not_mem_nil p)
    · obtain ⟨nr, hnr, a, ha, _, hor⟩ := suffixCollect_mem h
      rcases hor with h | ⟨m, hm, h⟩ <;> subst h
      · intro p hp
        rw [List.mem_singleton] at hp
        subst hp
        exact ⟨nr, hnr, rfl, ha⟩
      · intro p hp
        rcases List.mem_cons.1 hp with rfl | hp
        · exact ⟨nr, hnr, rfl, ha⟩
        · exact ih d (cutSuffix w a) m hm p hp

/-- Every morpheme produced by the prefix matcher carries a rule of the
prefix table. -/
theorem find_prefix_matches_fuel_rules :
    ∀ f w mr, mr ∈ find_prefix_matches_fuel f w →
      ∀ p ∈ mr.1, ∃ nr ∈ prefixes, p.2 = nr.2 ∧ p.1 ∈ nr.2.allomorphs := by
  intro f
  induction f with
  | zero =>
    intro w mr h
    rw [find_prefix_matches_fuel, List.mem_singleton] at h
    subst h
    intro p hp
    exact absurd hp (List.not_mem_nil p)
  | succ f ih =>
    intro w mr h
    simp only [find_prefix_matches_fuel] at h
    split at h
    · rw [List.mem_singleton] at h
      subst h
      intro p hp
      exact absurd hp (List.not_mem_nil p)
    · obtain ⟨nr, hnr, a, ha, _, hor⟩ := prefixCollect_mem h
      rcases hor with h | ⟨m, hm, h⟩ <;> subst h
      · intro p hp
        rw [List.mem_singleton] at hp
        subst hp
        exact ⟨nr, hnr, rfl, ha⟩
      · intro p hp
        rcases List.mem_cons.1 hp with rfl | hp
        · exact ⟨nr, hnr, rfl, ha⟩
        · exact ih (w.drop a.length) m hm p hp

/-! ## Pipeline equations -/

theorem strN_ne_strV : strN ≠ strV := by decide

theorem collectDecomps_noun (l : List MatchRes) :
    collectDecomps strN l = .ok (l.flatMap nounBranch) := by
  induction l with
  | nil => rfl
  | cons pr rest ih =>
    simp [collectDecomps, decompStep, ih, List.flatMap_cons]

theorem collectDecomps_verb (l : List MatchRes) :
    collectDecomps strV l = .ok (l.flatMap verbBranch) := by
  induction l with
  | nil => rfl
  | cons pr rest ih =>
    simp [collectDecomps, decompStep, if_neg (Ne.symm strN_ne_strV), ih,
      List.flatMap_cons]

theorem collectDecomps_unsupported {pos : Str} (hn : pos ≠ strN)
    (hv : pos ≠ strV) (pr : MatchRes) (rest : List MatchRes) :
    collectDecomps pos (pr :: rest) = .error (errUnsupported pos) := by
  simp only [collectDecomps, decompStep, if_neg hn, if_neg hv]

theorem decompose_noun (word : Str) :
    decompose word strN =
      .ok (remove_duplicates
        (if (find_prefix_matches (lower word)).flatMap nounBranch = []
          then [[(lower word, rootRule (lower word))]]
          else (find_prefix_matches (lower word)).flatMap nounBranch)) := by
  simp only [decompose, collectDecomps_noun]

theorem decompose_verb (word : Str) :
    decompose word strV =
      .ok (remove_duplicates
        (if (find_prefix_matches (lower word)).flatMap verbBranch = []
          then [[(lower word, rootRule (lower word))]]
          else (find_prefix_matches (lower word)).flatMap verbBranch)) := by
  simp only [decompose, collectDecomps_verb]

theorem decompose_unsupported {pos : Str} (hn : pos ≠ strN) (hv : pos ≠ strV)
    (word : Str) : decompose word pos = .error (errUnsupported pos) := by
  simp only [decompose]
  cases hfp : find_prefix_matches (lower word) with
  | nil => exact absurd hfp (find_prefix_matches_ne_nil (lower word))
  | cons pr rest => rw [collectDecomps_unsupported hn hv]

/-! ## Deduplication lemmas -/

theorem removeDupsAux_sublist (seen : List (List (Str × Str × Str × List Str))) :
    ∀ l : List Decomp, List.Sublist (removeDupsAux seen l) l := by
  intro l
  induction l generalizing seen with
  | nil => simp [removeDupsAux]
  | cons d ds ih =>
    rw [removeDupsAux]
    split
    · exact (ih seen).cons d
    · exact (ih _).cons₂ d

theorem removeDupsAux_not_seen
    (seen : List (List (Str × Str × Str × List Str))) :
    ∀ l : List Decomp, ∀ x ∈ removeDupsAux seen l, decompKey x ∉ seen := by
  intro l
  induction l generalizing seen with
  | nil => simp [removeDupsAux]
  | cons d ds ih =>
    intro x hx
    rw [removeDupsAux] at hx
    split at hx
    · exact ih seen x hx
    · rcases List.mem_cons.1 hx with rfl | hx
      · assumption
      · have := ih _ x hx
        intro hc
        exact this (List.mem_cons_of_mem _ hc)

theorem removeDupsAux_pairwise
    (seen : List (List (Str × Str × Str × List Str))) :
    ∀ l : List Decomp, (removeDupsAux seen l).Pairwise
      (fun a b => decompKey a ≠ decompKey b) := by
  intro l
  induction l generalizing seen with
  | nil => simp [removeDupsAux]
  | cons d ds ih =>
    rw [removeDupsAux]
    split
    · exact ih seen
    · refine List.Pairwise.cons ?_ (ih _)
      intro b hb
      have := removeDupsAux_not_seen _ _ b hb
      intro hc
      exact this (hc ▸ List.mem_cons_self _ _)

theorem removeDupsAux_find?
    (seen : List (List (Str × Str × Str × List Str))) :
    ∀ l : List Decomp, ∀ k ∉ seen,
      (removeDupsAux seen l).find? (fun x => decide (decompKey x = k)) =
        l.find? (fun x => decide (decompKey x = k)) := by
  intro l
  induction l generalizing seen with
  | nil => simp [removeDupsAux]
  | cons d ds ih =>
    intro k hk
    rw [removeDupsAux]
    split
    · rename_i hd
      have hne : decompKey d ≠ k := fun hc => hk (hc ▸ hd)
      rw [List.find?_cons_of_neg _ (by simpa using hne)]
      exact ih seen k hk
    · by_cases hdk : decompKey d = k
      · rw [List.find?_cons_of_pos _ (by simpa using hdk),
          List.find?_cons_of_pos _ (by simpa using hdk)]
      · rw [List.find?_cons_of_neg _ (by simpa using hdk),
          List.find?_cons_of_neg _ (by simpa using hdk)]
        refine ih _ k ?_
        intro hc
        rcases List.mem_cons.1 hc with hc | hc
        · exact hdk hc.symm
        · exact hk hc

theorem remove_duplicates_ne_nil {l : List Decomp} (h : l ≠ []) :
    remove_duplicates l ≠ [] := by
  cases l with
  | nil => exact absurd rfl h
  | cons d ds =>
    rw [remove_duplicates, removeDupsAux,
      if_neg (List.not_mem_nil (decompKey d))]
    exact List.cons_ne_nil _ _

theorem remove_duplicates_subset {l : List Decomp} :
    ∀ x ∈ remove_duplicates l, x ∈ l :=
  fun _ hx => (removeDupsAux_sublist [] l).subset hx

/-! ## Concrete facts about the rule tables -/

theorem prefixes_nonempty_allomorphs : AllomorphsNonEmpty prefixes := by decide

theorem noun_suffixes_nonempty_allomorphs : AllomorphsNonEmpty noun_suffixes := by
  decide

theorem verb_suffixes_nonempty_allomorphs : AllomorphsNonEmpty verb_suffixes := by
  decide

theorem plural_suffixes_nonempty_allomorphs :
    AllomorphsNonEmpty plural_suffixes := by decide

theorem noun_endings_nonempty_allomorphs : AllomorphsNonEmpty noun_endings := by
  decide

theorem prefixes_category : ∀ nr ∈ prefixes, nr.2.category = str "prefix" := by
  decide

theorem noun_suffixes_category :
    ∀ nr ∈ noun_suffixes, nr.2.category = str "suffix" := by decide

theorem verb_suffixes_category :
    ∀ nr ∈ verb_suffixes, nr.2.category = str "suffix" := by decide

theorem plural_suffixes_category :
    ∀ nr ∈ plural_suffixes, nr.2.category = str "suffix" := by decide

theorem noun_endings_category :
    ∀ nr ∈ noun_endings, nr.2.category = str "ending" := by decide

/-! ## Shape of the produced decompositions -/

/-- Every decomposition produced by the noun branch for a prefix hypothesis
`pr` splits as root, then the three suffix-stage segments; the remainder
`pr.2` is recovered by reading each stage segment in reverse order. -/
theorem nounBranch_shape {pr : MatchRes} {d : Decomp} (h : d ∈ nounBranch pr) :
    ∃ rt s1 s2 s3,
      d = pr.1 ++ (rt, rootRule rt) :: (s1 ++ (s2 ++ s3)) ∧
      rt ≠ [] ∧
      rt ++ (joinSurf s1.reverse ++ (joinSurf s2.reverse ++
        joinSurf s3.reverse)) = pr.2 ∧
      (∀ p ∈ s1, ∃ nr ∈ noun_suffixes, p.2 = nr.2) ∧
      (∀ p ∈ s2, ∃ nr ∈ plural_suffixes, p.2 = nr.2) ∧
      (∀ p ∈ s3, ∃ nr ∈ noun_endings, p.2 = nr.2) := by
  simp only [nounBranch, List.mem_flatMap] at h
  obtain ⟨er, her, plr, hplr, nsr, hnsr, h⟩ := h
  split at h
  · rw [List.mem_singleton] at h
    subst h
    refine ⟨nsr.2, nsr.1, plr.1, er.1, by simp, by assumption, ?_, ?_, ?_, ?_⟩
    · have h3 := find_suffix_matches_fuel_concat noun_endings_nonempty_allomorphs
        _ _ _ her
      have h2 := find_suffix_matches_fuel_concat
        plural_suffixes_nonempty_allomorphs _ _ _ hplr
      have h1 := find_suffix_matches_fuel_concat
        noun_suffixes_nonempty_allomorphs _ _ _ hnsr
      calc nsr.2 ++ (joinSurf nsr.1.reverse ++ (joinSurf plr.1.reverse ++
              joinSurf er.1.reverse))
          = ((nsr.2 ++ joinSurf nsr.1.reverse) ++ joinSurf plr.1.reverse) ++
              joinSurf er.1.reverse := by simp [List.append_assoc]
        _ = pr.2 := by rw [h1, h2, h3]
    · intro p hp
      obtain ⟨nr, hnr, hpe, _⟩ := find_suffix_matches_fuel_rules _ _ _ _ hnsr p hp
      exact ⟨nr, hnr, hpe⟩
    · intro p hp
      obtain ⟨nr, hnr, hpe, _⟩ := find_suffix_matches_fuel_rules _ _ _ _ hplr p hp
      exact ⟨nr, hnr, hpe⟩
    · intro p hp
      obtain ⟨nr, hnr, hpe, _⟩ := find_suffix_matches_fuel_rules _ _ _ _ her p hp
      exact ⟨nr, hnr, hpe⟩
  · cases h

/-- Every decomposition produced by the verb branch splits as root followed
by the verb-suffix segment. -/
theorem verbBranch_shape {pr : MatchRes} {d : Decomp} (h : d ∈ verbBranch pr) :
    ∃ rt s1,
      d = pr.1 ++ (rt, rootRule rt) :: s1 ∧
      rt ≠ [] ∧
      rt ++ joinSurf s1.reverse = pr.2 ∧
      (∀ p ∈ s1, ∃ nr ∈ verb_suffixes, p.2 = nr.2) := by
  simp only [verbBranch, List.mem_flatMap] at h
  obtain ⟨vr, hvr, h⟩ := h
  split at h
  · rw [List.mem_singleton] at h
    subst h
    refine ⟨vr.2, vr.1, by simp, by assumption, ?_, ?_⟩
    · exact find_suffix_matches_fuel_concat verb_suffixes_nonempty_allomorphs
        _ _ _ hvr
    · intro p hp
      obtain ⟨nr, hnr, hpe, _⟩ := find_suffix_matches_fuel_rules _ _ _ _ hvr p hp
      exact ⟨nr, hnr, hpe⟩
  · cases h

/-- Structure of every decomposition returned by `decompose`: prefixes, a
root, then up to three suffix-stage segments, whose surface forms reassemble
the lower-cased word once each stage segment is read in reverse order. -/
theorem decompose_shape {word pos : Str} {ds : List Decomp} {d : Decomp}
    (hok : decompose word pos = .ok ds) (hd : d ∈ ds) :
    ∃ pre rt s1 s2 s3,
      d = pre ++ (rt, rootRule rt) :: (s1 ++ (s2 ++ s3)) ∧
      joinSurf pre ++ (rt ++ (joinSurf s1.reverse ++ (joinSurf s2.reverse ++
        joinSurf s3.reverse))) = lower word ∧
      (rt = [] → lower word = []) ∧
      (∀ p ∈ pre, p.2.category = str "prefix") ∧
      (∀ p ∈ s1 ++ (s2 ++ s3),
        p.2.category = str "suffix" ∨ p.2.category = str "ending") := by
  by_cases hn : pos = strN
  · subst hn
    rw [decompose_noun] at hok
    injection hok with hok
    subst hok
    have hd2 := remove_duplicates_subset d hd
    split at hd2
    · rw [List.mem_singleton] at hd2
      subst hd2
      exact ⟨[], lower word, [], [], [], by simp, by simp [joinSurf],
        fun h => h, by simp, by simp⟩
    · rw [List.mem_flatMap] at hd2
      obtain ⟨pr, hpr, hdb⟩ := hd2
      obtain ⟨rt, s1, s2, s3, hshape, hrt, hcat, hs1, hs2, hs3⟩ :=
        nounBranch_shape hdb
      have hpre := find_prefix_matches_fuel_concat _ _ _ hpr
      refine ⟨pr.1, rt, s1, s2, s3, hshape, ?_, fun h => absurd h hrt, ?_, ?_⟩
      · rw [← hpre, ← hcat]
      · intro p hp
        obtain ⟨nr, hnr, hpe, _⟩ := find_prefix_matches_fuel_rules _ _ _ hpr p hp
        rw [hpe]
        exact prefixes_category nr hnr
      · intro p hp
        rcases List.mem_append.1 hp with hp | hp
        · obtain ⟨nr, hnr, hpe⟩ := hs1 p hp
          exact Or.inl (hpe ▸ noun_suffixes_category nr hnr)
        · rcases List.mem_append.1 hp with hp | hp
          · obtain ⟨nr, hnr, hpe⟩ := hs2 p hp
            exact Or.inl (hpe ▸ plural_suffixes_category nr hnr)
          · obtain ⟨nr, hnr, hpe⟩ := hs3 p hp
            exact Or.inr (hpe ▸ noun_endings_category nr hnr)
  · by_cases hv : pos = strV
    · subst hv
      rw [decompose_verb] at hok
      injection hok with hok
      subst hok
      have hd2 := remove_duplicates_subset d hd
      split at hd2
      · rw [List.mem_singleton] at hd2
        subst hd2
        exact ⟨[], lower word, [], [], [], by simp, by simp [joinSurf],
          fun h => h, by simp, by simp⟩
      · rw [List.mem_flatMap] at hd2
        obtain ⟨pr, hpr, hdb⟩ := hd2
        obtain ⟨rt, s1, hshape, hrt, hcat, hs1⟩ := verbBranch_shape hdb
        have hpre := find_prefix_matches_fuel_concat _ _ _ hpr
        refine ⟨pr.1, rt, s1, [], [], by simpa using hshape, ?_,
          fun h => absurd h hrt, ?_, ?_⟩
        · rw [← hpre, ← hcat]
          simp [joinSurf, List.append_assoc]
        · intro p hp
          obtain ⟨nr, hnr, hpe, _⟩ :=
            find_prefix_matches_fuel_rules _ _ _ hpr p hp
          rw [hpe]
          exact prefixes_category nr hnr
        · intro p hp
          simp only [List.append_nil] at hp
          obtain ⟨nr, hnr, hpe⟩ := hs1 p hp
          exact Or.inl (hpe ▸ verb_suffixes_category nr hnr)
    · rw [decompose_unsupported hn hv] at hok
      cases hok

/-! ## Fuel congruence (termination of the matchers) -/

theorem suffixCollect_congr {rec1 rec2 : Str → List MatchRes} {d : RuleTable}
    (hd : AllomorphsNonEmpty d) {w : Str}
    (h : ∀ r : Str, r.length < w.length → rec1 r = rec2 r) :
    suffixCollect rec1 d w = suffixCollect rec2 d w := by
  rw [suffixCollect, suffixCollect]
  refine List.flatMap_congr fun nr hnr => ?_
  refine List.flatMap_congr fun a ha => ?_
  by_cases hs : a.isSuffixOf w
  · rw [if_pos hs, if_pos hs]
    have hane : a ≠ [] := hd nr hnr a ha
    obtain ⟨p, hp⟩ : a <:+ w := by
      rw [← List.isSuffixOf_iff_suffix]
      exact hs
    have hlen : (cutSuffix w a).length < w.length := by
      rw [cutSuffix_spec hp hane, ← hp, List.length_append]
      have : 0 < a.length := List.length_pos.2 hane
      omega
    simp only [h (cutSuffix w a) hlen]
  · rw [if_neg hs, if_neg hs]

theorem prefixCollect_congr {rec1 rec2 : Str → List MatchRes} {w : Str}
    (h : ∀ r : Str, r.length < w.length → rec1 r = rec2 r) :
    prefixCollect rec1 w = prefixCollect rec2 w := by
  rw [prefixCollect, prefixCollect]
  refine List.flatMap_congr fun nr hnr => ?_
  refine List.flatMap_congr fun a ha => ?_
  by_cases hs : a.isPrefixOf w
  · rw [if_pos hs, if_pos hs]
    have hane : a ≠ [] := prefixes_nonempty_allomorphs nr hnr a ha
    have hle : a.length ≤ w.length := by
      obtain ⟨t, ht⟩ : a <+: w := by
        rw [← List.isPrefixOf_iff_prefix]
        exact hs
      rw [← ht, List.length_append]
      omega
    have hlen : (w.drop a.length).length < w.length := by
      rw [List.length_drop]
      have : 0 < a.length := List.length_pos.2 hane
      omega
    simp only [h (w.drop a.length) hlen]
  · rw [if_neg hs, if_neg hs]

theorem find_suffix_matches_fuel_congr {d : RuleTable}
    (hd : AllomorphsNonEmpty d) :
    ∀ n (w : Str), w.length ≤ n → ∀ f1 f2, w.length < f1 → w.length < f2 →
      find_suffix_matches_fuel f1 d w = find_suffix_matches_fuel f2 d w := by
  intro n
  induction n with
  | zero =>
    intro w hw f1 f2 h1 h2
    obtain ⟨g1, rfl⟩ : ∃ g, f1 = g + 1 := ⟨f1 - 1, by omega⟩
    obtain ⟨g2, rfl⟩ : ∃ g, f2 = g + 1 := ⟨f2 - 1, by omega⟩
    simp only [find_suffix_matches_fuel]
    rw [suffixCollect_congr hd fun r hr => absurd hr (by omega)]
  | succ n ih =>
    intro w hw f1 f2 h1 h2
    obtain ⟨g1, rfl⟩ : ∃ g, f1 = g + 1 := ⟨f1 - 1, by omega⟩
    obtain ⟨g2, rfl⟩ : ∃ g, f2 = g + 1 := ⟨f2 - 1, by omega⟩
    simp only [find_suffix_matches_fuel]
    rw [suffixCollect_congr hd fun r hr =>
      ih r (by omega) g1 g2 (by omega) (by omega)]

theorem find_prefix_matches_fuel_congr :
    ∀ n (w : Str), w.length ≤ n → ∀ f1 f2, w.length < f1 → w.length < f2 →
      find_prefix_matches_fuel f1 w = find_prefix_matches_fuel f2 w := by
  intro n
  induction n with
  | zero =>
    intro w hw f1 f2 h1 h2
    obtain ⟨g1, rfl⟩ : ∃ g, f1 = g + 1 := ⟨f1 - 1, by omega⟩
    obtain ⟨g2, rfl⟩ : ∃ g, f2 = g + 1 := ⟨f2 - 1, by omega⟩
    simp only [find_prefix_matches_fuel]
    rw [prefixCollect_congr fun r hr => absurd hr (by omega)]
  | succ n ih =>
    intro w hw f1 f2 h1 h2
    obtain ⟨g1, rfl⟩ : ∃ g, f1 = g + 1 := ⟨f1 - 1, by omega⟩
    obtain ⟨g2, rfl⟩ : ∃ g, f2 = g + 1 := ⟨f2 - 1, by omega⟩
    simp only [find_prefix_matches_fuel]
    rw [prefixCollect_congr fun r hr =>
      ih r (by omega) g1 g2 (by omega) (by omega)]

/-! ## The syllabifier scan preserves the word -/

theorem sylLoop_flatten : ∀ (rest cur : Str),
    (sylLoop rest cur).flatten = cur ++ rest := by
  intro rest cur
  induction rest, cur using sylLoop.induct <;>
    simp only [sylLoop] <;> (repeat' split) <;> simp_all

/-! ## The claims -/

/-- C1 (counterexample): `decompose("copilul", noun)` returns a
decomposition — root `copil`, then endings `l`, `u` in that listed order —
whose concatenation is `copillu`, not the lower-cased input `copilul`. -/
theorem C1_counterexample :
    [(str "copil", rootRule (str "copil")), (str "l", ulRule), (str "u", ulRule)]
        ∈ decomps (str "copilul") strN ∧
      joinSurf [(str "copil", rootRule (str "copil")), (str "l", ulRule),
        (str "u", ulRule)] ≠ lower (str "copilul") := by
  decide

/-- C1 (amended): every Decomposition returned by `decompose` splits as
prefixes, root, and the three suffix-stage segments, and concatenating the
prefix surface forms, the root, and then each suffix-stage segment read in
reverse listed order reproduces the lower-cased word exactly.  (As stated
the claim fails: within one stage, stacked suffixes are listed
outermost-first, so their surface forms concatenate in reverse.) -/
theorem C1_concat_with_stage_reversal :
    ∀ (word pos : Str) (ds : List Decomp) (d : Decomp),
      decompose word pos = Except.ok ds → d ∈ ds →
      ∃ pre rt s1 s2 s3,
        d = pre ++ (rt, rootRule rt) :: (s1 ++ (s2 ++ s3)) ∧
        joinSurf pre ++ (rt ++ (joinSurf s1.reverse ++ (joinSurf s2.reverse ++
          joinSurf s3.reverse))) = lower word := by
  intro word pos ds d hok hd
  obtain ⟨pre, rt, s1, s2, s3, h1, h2, _⟩ := decompose_shape hok hd
  exact ⟨pre, rt, s1, s2, s3, h1, h2⟩

/-- C1 (witness): the amended statement instantiated on
`decompose("casa", noun)`. -/
theorem C1_concat_witness :
    ∃ pre rt s1 s2 s3,
      [(str "cas", rootRule (str "cas")), (str "a", aRule)] =
        pre ++ (rt, rootRule rt) :: (s1 ++ (s2 ++ s3)) ∧
      joinSurf pre ++ (rt ++ (joinSurf s1.reverse ++ (joinSurf s2.reverse ++
        joinSurf s3.reverse))) = lower (str "casa") :=
  C1_concat_with_stage_reversal (str "casa") strN
    [[(str "cas", rootRule (str "cas")), (str "a", aRule)]]
    [(str "cas", rootRule (str "cas")), (str "a", aRule)] rfl (by decide)

/-- C2: on the spec-modelled engine (the source's `_find_prefix_matches`
calls the undefined `_find_prefix_matches_from_start`, so the source itself
raises `AttributeError` here; see the model's doc comment),
`decompose("nelucrând", verb)` contains the decomposition
`[(ne, prefix, negation), (lucr, root, root), (ând, suffix, gerund)]`, whose
concatenation reproduces `nelucrând` exactly. -/
theorem C2_spec_model_eval :
    [(str "ne", neRule), (str "lucr", rootRule (str "lucr")),
        (str "ând", gerundRule)] ∈ decomps (str "nelucrând") strV ∧
      joinSurf [(str "ne", neRule), (str "lucr", rootRule (str "lucr")),
        (str "ând", gerundRule)] = str "nelucrând" := by
  decide

/-- C3 (counterexample): the Ending stage is not optional.  On `casa` the
ending sub-table matches (`a`), and the stage's output does not offer the
no-ending hypothesis `([], "casa")` alongside the matches. -/
theorem C3_counterexample :
    (([], str "casa") : MatchRes) ∉
        find_suffix_matches (str "casa") noun_endings ∧
      find_suffix_matches (str "casa") noun_endings ≠ [] := by
  decide

/-- C3 (amended): every suffix stage — ending, plural and noun-suffix alike —
is fallback-only: the no-strip hypothesis appears in a stage's output exactly
when no allomorph of that sub-table matched, in which case it is the entire
output.  (There is no `alwaysIncludeEmpty` distinction in the code.) -/
theorem C3_fallback_only :
    ∀ (d : RuleTable) (w : Str),
      (([], w) : MatchRes) ∈ find_suffix_matches w d ↔
        find_suffix_matches w d = [([], w)] := by
  intro d w
  constructor
  · intro h
    rw [find_suffix_matches] at h ⊢
    simp only [find_suffix_matches_fuel] at h ⊢
    split at h
    · rename_i hms
      rw [if_pos hms]
    · rename_i hms
      rw [if_neg hms]
      exact absurd rfl (suffixCollect_fst_ne_nil h)
  · intro h
    rw [h]
    exact List.mem_singleton.2 rfl

/-- C3 (witness): the amended statement instantiated on the ending
sub-table: no ending matches `xyz`, so the stage's output is exactly the
no-strip hypothesis. -/
theorem C3_fallback_witness :
    find_suffix_matches (str "xyz") noun_endings = [([], str "xyz")] :=
  (C3_fallback_only noun_endings (str "xyz")).1 (by decide)

/-- C4: for every non-empty word and supported part of speech, `decompose`
returns a non-empty decomposition list; and when no configured affix
matches anywhere (all four matcher stages return only their empty
hypothesis), the result is exactly the single whole-word root
decomposition. -/
theorem C4_nonempty_result :
    ∀ (word pos : Str), word ≠ [] →
      ((pos = strN ∨ pos = strV) →
        ∃ ds, decompose word pos = Except.ok ds ∧ ds ≠ []) ∧
      (pos = strN →
        find_prefix_matches (lower word) = [([], lower word)] →
        find_suffix_matches (lower word) noun_endings = [([], lower word)] →
        find_suffix_matches (lower word) plural_suffixes = [([], lower word)] →
        find_suffix_matches (lower word) noun_suffixes = [([], lower word)] →
        decompose word pos =
          Except.ok [[(lower word, rootRule (lower word))]]) ∧
      (pos = strV →
        find_prefix_matches (lower word) = [([], lower word)] →
        find_suffix_matches (lower word) verb_suffixes = [([], lower word)] →
        decompose word pos =
          Except.ok [[(lower word, rootRule (lower word))]]) := by
  intro word pos hw
  have hlw : lower word ≠ [] := fun hc => hw ((lower_eq_nil_iff word).1 hc)
  refine ⟨?_, ?_, ?_⟩
  · rintro (rfl | rfl)
    · refine ⟨_, decompose_noun word, remove_duplicates_ne_nil ?_⟩
      split
      · exact List.cons_ne_nil _ _
      · assumption
    · refine ⟨_, decompose_verb word, remove_duplicates_ne_nil ?_⟩
      split
      · exact List.cons_ne_nil _ _
      · assumption
  · rintro rfl hp h3 h2 h1
    rw [decompose_noun, hp]
    have hnb : nounBranch ([], lower word) =
        [[(lower word, rootRule (lower word))]] := by
      simp [nounBranch, h3, h2, h1, hlw]
    simp [hnb, remove_duplicates, removeDupsAux]
  · rintro rfl hp h1
    rw [decompose_verb, hp]
    have hvb : verbBranch ([], lower word) =
        [[(lower word, rootRule (lower word))]] := by
      simp [verbBranch, h1, hlw]
    simp [hvb, remove_duplicates, removeDupsAux]

/-- C4 (witness): on `xyz` (no affix of any table matches) both parts apply:
the result is non-empty and is exactly the whole-word root decomposition. -/
theorem C4_nonempty_witness :
    (∃ ds, decompose (str "xyz") strN = Except.ok ds ∧ ds ≠ []) ∧
      decompose (str "xyz") strN =
        Except.ok [[(lower (str "xyz"), rootRule (lower (str "xyz")))]] :=
  ⟨(C4_nonempty_result (str "xyz") strN (by decide)).1 (Or.inl rfl),
    (C4_nonempty_result (str "xyz") strN (by decide)).2.1 rfl (by decide)
      (by decide) (by decide) (by decide)⟩

/-- C5 (counterexample): for the empty input word the claim fails — the
returned list contains the root-only decomposition of the empty string,
whose root surface form is empty. -/
theorem C5_counterexample :
    ¬ (∀ ds, decompose [] strN = Except.ok ds →
        ∀ d ∈ ds, ∀ p ∈ d, p.2.category = str "root" → p.1 ≠ []) := by
  intro h
  exact h [[([], rootRule [])]] rfl [([], rootRule [])] (by decide)
    ([], rootRule []) (by decide) rfl rfl

/-- C5 (amended): for every NON-EMPTY input word and any part of speech, no
returned decomposition contains a root-category morpheme with an empty
surface form. -/
theorem C5_no_empty_root :
    ∀ (word pos : Str) (ds : List Decomp) (d : Decomp) (p : Morph),
      word ≠ [] → decompose word pos = Except.ok ds → d ∈ ds → p ∈ d →
      p.2.category = str "root" → p.1 ≠ [] := by
  intro word pos ds d p hw hok hd hp hcat
  obtain ⟨pre, rt, s1, s2, s3, hshape, _, hroot, hpre, hsuf⟩ :=
    decompose_shape hok hd
  subst hshape
  rcases List.mem_append.1 hp with hp | hp
  · exact absurd ((hpre p hp).symm.trans hcat) (by decide)
  · rcases List.mem_cons.1 hp with rfl | hp
    · intro h0
      exact hw ((lower_eq_nil_iff word).1 (hroot h0))
    · rcases hsuf p hp with hc | hc
      · exact absurd (hc.symm.trans hcat) (by decide)
      · exact absurd (hc.symm.trans hcat) (by decide)

/-- C5 (witness): the amended statement instantiated on
`decompose("casa", noun)` and its root morpheme. -/
theorem C5_no_empty_root_witness : (str "cas", rootRule (str "cas")).1 ≠ [] :=
  C5_no_empty_root (str "casa") strN
    [[(str "cas", rootRule (str "cas")), (str "a", aRule)]]
    [(str "cas", rootRule (str "cas")), (str "a", aRule)]
    (str "cas", rootRule (str "cas")) (by decide) rfl (by decide) (by decide)
    rfl

/-- C6: for every word and every part-of-speech value other than `n` and
`v`, `decompose` signals the unsupported-part-of-speech error (a Python
`ValueError`) and produces no decomposition list. -/
theorem C6_unsupported_pos :
    ∀ (word pos : Str), pos ≠ strN → pos ≠ strV →
      decompose word pos = Except.error (errUnsupported pos) :=
  fun word _ hn hv => decompose_unsupported hn hv word

/-- C6 (witness): `decompose("abc", "x")` signals the error. -/
theorem C6_unsupported_witness :
    decompose (str "abc") (str "x") =
      Except.error (errUnsupported (str "x")) :=
  C6_unsupported_pos (str "abc") (str "x") (by decide) (by decide)

/-- C7 (counterexample): there is no `DegenerateInput` rejection — on the
empty word with a supported part of speech, `decompose` succeeds and returns
the root-only decomposition of the empty string. -/
theorem C7_counterexample :
    decompose [] strN = Except.ok [[([], rootRule [])]] := rfl

/-- C7 (amended): for the empty input word and either supported part of
speech, `decompose` returns exactly the single root-only decomposition of
the empty string (it signals no error). -/
theorem C7_empty_word_root_only :
    decompose [] strN = Except.ok [[([], rootRule [])]] ∧
      decompose [] strV = Except.ok [[([], rootRule [])]] :=
  ⟨rfl, rfl⟩

/-- C8: `_remove_duplicates` returns a sublist (so relative order is the
first-seen order) in which no two elements share a canonical key, and for
every key the first element of the output with that key is exactly the
first element of the input with that key (so exactly the first occurrence
of each key is kept); consequently no two decompositions in any successful
`decompose` result share a canonical key. -/
theorem C8_dedup :
    (∀ l : List Decomp,
      List.Sublist (remove_duplicates l) l ∧
      (remove_duplicates l).Pairwise (fun a b => decompKey a ≠ decompKey b) ∧
      ∀ k, (remove_duplicates l).find? (fun x => decide (decompKey x = k)) =
        l.find? (fun x => decide (decompKey x = k))) ∧
    ∀ (word pos : Str) (ds : List Decomp), decompose word pos = Except.ok ds →
      ds.Pairwise (fun a b => decompKey a ≠ decompKey b) := by
  constructor
  · intro l
    exact ⟨removeDupsAux_sublist [] l, removeDupsAux_pairwise [] l,
      fun k => removeDupsAux_find? [] l k (List.not_mem_nil k)⟩
  · intro word pos ds hok
    by_cases hn : pos = strN
    · subst hn
      rw [decompose_noun] at hok
      injection hok with hok
      subst hok
      exact removeDupsAux_pairwise [] _
    · by_cases hv : pos = strV
      · subst hv
        rw [decompose_verb] at hok
        injection hok with hok
        subst hok
        exact removeDupsAux_pairwise [] _
      · rw [decompose_unsupported hn hv] at hok
        cases hok

/-- C8 (witness): the deduplication guarantee instantiated on the result of
`decompose("casa", noun)`. -/
theorem C8_dedup_witness :
    ([[(str "cas", rootRule (str "cas")), (str "a", aRule)]] :
        List Decomp).Pairwise (fun a b => decompKey a ≠ decompKey b) :=
  C8_dedup.2 (str "casa") strN
    [[(str "cas", rootRule (str "cas")), (str "a", aRule)]] rfl

/-- C9: when every allomorph of the sub-table has length at least one, both
matchers terminate with recursion depth bounded by the word length: any
fuel exceeding the word's length computes the same result as the canonical
fuel (word length + 1), for the suffix matcher on that sub-table and for
the prefix matcher (whose table's allomorphs are all non-empty). -/
theorem C9_matcher_termination :
    ∀ d : RuleTable, AllomorphsNonEmpty d →
      (∀ (w : Str) (f : Nat), w.length < f →
        find_suffix_matches_fuel f d w = find_suffix_matches w d) ∧
      (∀ (w : Str) (f : Nat), w.length < f →
        find_prefix_matches_fuel f w = find_prefix_matches w) := by
  intro d hd
  constructor
  · intro w f hf
    rw [find_suffix_matches]
    exact find_suffix_matches_fuel_congr hd w.length w le_rfl f
      (w.length + 1) hf (by omega)
  · intro w f hf
    rw [find_prefix_matches]
    exact find_prefix_matches_fuel_congr w.length w le_rfl f
      (w.length + 1) hf (by omega)

/-- C9 (witness): on the ending sub-table and the word `casa`, fuel `10`
computes the same matches as the canonical fuel. -/
theorem C9_termination_witness :
    find_suffix_matches_fuel 10 noun_endings (str "casa") =
      find_suffix_matches (str "casa") noun_endings :=
  (C9_matcher_termination noun_endings (by decide)).1 (str "casa") 10
    (by decide)

/-- C10: concatenating, in order, the syllables returned by
`find_syllable_boundaries(word)` yields exactly the lower-cased word — the
syllabifier neither drops, duplicates, nor reorders characters. -/
theorem C10_syllables_concat :
    ∀ w : Str, (find_syllable_boundaries w).flatten = lower w := by
  intro w
  rw [find_syllable_boundaries, sylLoop_flatten]
  exact List.nil_append _

end RoFST
